import Mathlib

/-!
Shallow embedding of the symbolic dwarf-stats crate: the symcache binary
format reader (src/dwarf-stats/src/format/mod.rs, raw.rs) and the DWARF
converter (src/dwarf-stats/src/converter/mod.rs, dwarf.rs).

Machine integers are modelled as Nat with explicit reduction modulo 2^32
exactly where the Rust code performs an `as u32` cast.  Byte buffers are
lists of Nat.  Fallible operations return Except.  The gimli reader is out
of scope for the crate; its materialized data (attribute lists, resolved
attribute strings, line rows) appears as explicit inputs.
-/

namespace Symbolic

/-- 2^32, the wrap-around modulus of u32 casts. -/
def U32LIM : Nat := 4294967296

/-- Result of an `as u32` cast on a wider integer. -/
def asU32 (n : Nat) : Nat := n % U32LIM

/-- u32::MAX, the sentinel denoting an absent index. -/
def u32MAX : Nat := 4294967295

/-! ## format/raw.rs -/

/-- Embedding of raw.rs `align_to_eight`: the amount to add to reach the
next multiple of 8. -/
def align_to_eight (to_align : Nat) : Nat :=
  let remainder := to_align % 8
  if remainder = 0 then remainder else 8 - remainder

/-- raw.rs SYMCACHE_MAGIC: u32::from_be_bytes of the ASCII bytes SYMC. -/
def SYMCACHE_MAGIC : Nat := 0x53594D43

/-- raw.rs SYMCACHE_MAGIC_FLIPPED: the byte-swapped magic, indicating an
endianness mismatch. -/
def SYMCACHE_MAGIC_FLIPPED : Nat := 0x434D5953

/-- raw.rs SYMCACHE_VERSION: the latest version of the file format. -/
def SYMCACHE_VERSION : Nat := 1000

/-- Read a little-endian u32 from a byte buffer at the given offset
(reads past the end yield 0; `Format.parse` bounds-checks before use). -/
def readU32 (buf : List Nat) (off : Nat) : Nat :=
  buf.getD off 0 + 256 * buf.getD (off + 1) 0 + 65536 * buf.getD (off + 2) 0
    + 16777216 * buf.getD (off + 3) 0

/-- raw.rs Header: eight u32 fields, 32 bytes. -/
structure Header where
  magic : Nat
  version : Nat
  num_strings : Nat
  num_files : Nat
  num_functions : Nat
  num_source_locations : Nat
  num_ranges : Nat
  string_bytes : Nat
deriving DecidableEq

/-- Decode a raw Header from the first 32 bytes of a buffer, as the
pointer cast in `Format::parse` does on a little-endian host. -/
def decodeHeader (buf : List Nat) : Header :=
  ⟨readU32 buf 0, readU32 buf 4, readU32 buf 8, readU32 buf 12,
   readU32 buf 16, readU32 buf 20, readU32 buf 24, readU32 buf 28⟩

/-- raw.rs String record: 8 bytes. -/
structure RawString where
  string_offset : Nat
  string_len : Nat
deriving DecidableEq

/-- raw.rs File record: 12 bytes. -/
structure RawFile where
  comp_dir_idx : Nat
  directory_idx : Nat
  path_name_idx : Nat
deriving DecidableEq

/-- raw.rs Function record: 4 bytes. -/
structure RawFunction where
  name_idx : Nat
deriving DecidableEq

/-- raw.rs SourceLocation record: 16 bytes. -/
structure RawSourceLocation where
  file_idx : Nat
  line : Nat
  function_idx : Nat
  inlined_into_idx : Nat
deriving DecidableEq

/-- Decode `n` consecutive raw String records. -/
def decodeStrings : Nat → List Nat → List RawString
  | 0, _ => []
  | n + 1, b => ⟨readU32 b 0, readU32 b 4⟩ :: decodeStrings n (b.drop 8)

/-- Decode `n` consecutive raw File records. -/
def decodeFiles : Nat → List Nat → List RawFile
  | 0, _ => []
  | n + 1, b => ⟨readU32 b 0, readU32 b 4, readU32 b 8⟩ :: decodeFiles n (b.drop 12)

/-- Decode `n` consecutive raw Function records. -/
def decodeFunctions : Nat → List Nat → List RawFunction
  | 0, _ => []
  | n + 1, b => ⟨readU32 b 0⟩ :: decodeFunctions n (b.drop 4)

/-- Decode `n` consecutive raw SourceLocation records. -/
def decodeSourceLocations : Nat → List Nat → List RawSourceLocation
  | 0, _ => []
  | n + 1, b =>
    ⟨readU32 b 0, readU32 b 4, readU32 b 8, readU32 b 12⟩
      :: decodeSourceLocations n (b.drop 16)

/-- Decode `n` consecutive raw Range records (a single u32 each). -/
def decodeRanges : Nat → List Nat → List Nat
  | 0, _ => []
  | n + 1, b => readU32 b 0 :: decodeRanges n (b.drop 4)

/-- The validation errors reachable from `Format::parse` (format/error.rs). -/
inductive FormatError where
  | bufferNotAligned
  | headerTooSmall
  | badFormatLength
deriving DecidableEq

/-- format/mod.rs `Format`: the typed section views of a parsed buffer. -/
structure Format where
  strings : List RawString
  files : List RawFile
  functions : List RawFunction
  source_locations : List RawSourceLocation
  ranges : List Nat
  string_bytes : List Nat
deriving DecidableEq

/-- Aligned header size: mem::size_of Header (32) padded to 8. -/
def header_size : Nat := 32 + align_to_eight 32

/-- Aligned byte size of the String section for a given header. -/
def strings_size (h : Header) : Nat :=
  8 * h.num_strings + align_to_eight (8 * h.num_strings)

/-- Aligned byte size of the File section. -/
def files_size (h : Header) : Nat :=
  12 * h.num_files + align_to_eight (12 * h.num_files)

/-- Aligned byte size of the Function section. -/
def functions_size (h : Header) : Nat :=
  4 * h.num_functions + align_to_eight (4 * h.num_functions)

/-- Aligned byte size of the SourceLocation section. -/
def source_locations_size (h : Header) : Nat :=
  16 * h.num_source_locations + align_to_eight (16 * h.num_source_locations)

/-- Aligned byte size of the Range section. -/
def ranges_size (h : Header) : Nat :=
  4 * h.num_ranges + align_to_eight (4 * h.num_ranges)

/-- The exact buffer size `Format::parse` demands. -/
def expected_buf_size (h : Header) : Nat :=
  header_size + strings_size h + files_size h + functions_size h
    + source_locations_size h + ranges_size h + h.string_bytes

/-- Embedding of `Format::parse` (format/mod.rs lines 27-119).  `base` is
the numeric address of the buffer start (only its alignment is observed).
Note that the source checks neither magic nor version: that code is
commented out behind a TODO. -/
def Format.parse (base : Nat) (buf : List Nat) : Except FormatError Format :=
  if align_to_eight base ≠ 0 then .error .bufferNotAligned
  else if buf.length < header_size then .error .headerTooSmall
  else
    let header := decodeHeader buf
    if buf.length ≠ expected_buf_size header
        ∨ source_locations_size header < ranges_size header then
      .error .badFormatLength
    else
      let strings_start := buf.drop header_size
      let files_start := strings_start.drop (strings_size header)
      let functions_start := files_start.drop (files_size header)
      let source_locations_start := functions_start.drop (functions_size header)
      let ranges_start := source_locations_start.drop (source_locations_size header)
      let string_bytes_start := ranges_start.drop (ranges_size header)
      .ok ⟨decodeStrings header.num_strings strings_start,
           decodeFiles header.num_files files_start,
           decodeFunctions header.num_functions functions_start,
           decodeSourceLocations header.num_source_locations source_locations_start,
           decodeRanges header.num_ranges ranges_start,
           string_bytes_start.take header.string_bytes⟩

/-! ## converter/mod.rs -/

/-- In-memory String metadata (converter/mod.rs). -/
structure StringRec where
  string_offset : Nat
  string_len : Nat
deriving DecidableEq

/-- In-memory File (converter/mod.rs): optional directory, path name. -/
structure File where
  directory_idx : Option Nat
  path_name_idx : Nat
deriving DecidableEq

/-- In-memory Function (converter/mod.rs). -/
structure Function where
  name_idx : Nat
deriving DecidableEq

/-- In-memory SourceLocation (converter/mod.rs). -/
structure SourceLocation where
  file_idx : Nat
  line : Nat
  function_idx : Nat
  inlined_into_idx : Option Nat
deriving DecidableEq

/-- Position of the first entry with the given key in an insertion-ordered
string table, as IndexMap::get_index_of. -/
def get_index_of (l : List (List Nat × StringRec)) (s : List Nat) : Option Nat :=
  match l with
  | [] => none
  | p :: rest => if p.1 = s then some 0 else (get_index_of rest s).map (· + 1)

/-- Position of the first occurrence of `x`, as IndexSet::get_index_of. -/
def findIndexOf [DecidableEq α] (l : List α) (x : α) : Option Nat :=
  match l with
  | [] => none
  | y :: rest => if y = x then some 0 else (findIndexOf rest x).map (· + 1)

/-- IndexSet::insert_full: index of an existing equal element, or append
and return the fresh index. -/
def insert_full [DecidableEq α] (l : List α) (x : α) : Nat × List α :=
  match findIndexOf l x with
  | some i => (i, l)
  | none => (l.length, l ++ [x])

/-- The Converter's interning state (converter/mod.rs).  `ranges` maps PC
addresses to source locations as converter/dwarf.rs populates it. -/
structure Converter where
  string_bytes : List Nat
  strings : List (List Nat × StringRec)
  files : List File
  functions : List Function
  source_locations : List SourceLocation
  ranges : List (Nat × SourceLocation)
deriving DecidableEq

/-- Converter::new / Default. -/
def Converter.new : Converter := ⟨[], [], [], [], [], []⟩

/-- Embedding of `Converter::insert_string` (converter/mod.rs lines
24-39): dedup by byte equality, else append bytes to the blob and record
the (offset, length) window. -/
def Converter.insert_string (c : Converter) (s : List Nat) : Nat × Converter :=
  match get_index_of c.strings s with
  | some existing_idx => (asU32 existing_idx, c)
  | none =>
    let string_offset := asU32 c.string_bytes.length
    let string_len := asU32 s.length
    let string_idx := c.strings.length
    (asU32 string_idx,
     { c with
        string_bytes := c.string_bytes ++ s,
        strings := c.strings ++ [(s, ⟨string_offset, string_len⟩)] })

/-! ## converter/dwarf.rs: association-list model of BTreeMap -/

/-- Lookup in a key-sorted association list (BTreeMap::get semantics). -/
def alookup : List (Nat × α) → Nat → Option α
  | [], _ => none
  | (k0, v0) :: rest, k => if k0 = k then some v0 else alookup rest k

/-- Sorted insert replacing an existing binding (BTreeMap::insert). -/
def binsert (k : Nat) (v : α) : List (Nat × α) → List (Nat × α)
  | [] => [(k, v)]
  | (k0, v0) :: rest =>
    if k < k0 then (k, v) :: (k0, v0) :: rest
    else if k = k0 then (k, v) :: rest
    else (k0, v0) :: binsert k v rest

/-- The BTreeMap key invariant: strictly increasing keys. -/
def keySorted (l : List (Nat × α)) : Prop :=
  l.Pairwise (fun p q => p.1 < q.1)

/-! ## converter/dwarf.rs: DWARF-side data as presented by gimli -/

/-- The DWARF attribute names the converter inspects. -/
inductive AttrName where
  | call_file
  | call_line
  | abstract_origin
  | nameAttr
  | linkage_name
  | otherAttr
deriving DecidableEq

/-- Materialized gimli attribute values, as matched by the converter. A
resolved string payload stands for the attr_string/to_string chain of the
out-of-scope reader. -/
inductive AttrValue where
  | fileIndexVal (fi : Nat)
  | unitRefVal (ur : Nat)
  | udataVal (n : Nat)
  | stringVal (s : List Nat)
  | otherVal
deriving DecidableEq

/-- A DIE attribute. -/
structure Attr where
  name : AttrName
  value : AttrValue
deriving DecidableEq

/-- gimli's Attribute::udata_value: a plain unsigned payload or none. -/
def udata_value : AttrValue → Option Nat
  | .udataVal n => some n
  | _ => none

/-- dwarf.rs CallerInfo: the three caller attributes of an inlined
subroutine. `call_line` already carries the `as u32` narrowing. -/
structure CallerInfo where
  call_file : Nat
  call_line : Nat
  abstract_origin : Nat
deriving DecidableEq

/-- One iteration of the attribute loop in `find_caller_info`
(dwarf.rs lines 319-336), threading the three mutable Options. -/
def fciStep (s : Option Nat × Option Nat × Option Nat) (attr : Attr) :
    Option Nat × Option Nat × Option Nat :=
  match attr.name with
  | .call_file =>
    match attr.value with
    | .fileIndexVal fi => (some fi, s.2.1, s.2.2)
    | _ => s
  | .call_line => (s.1, (udata_value attr.value).map asU32, s.2.2)
  | .abstract_origin =>
    match attr.value with
    | .unitRefVal ur => (s.1, s.2.1, some ur)
    | _ => s
  | _ => s

/-- Embedding of `find_caller_info` (dwarf.rs lines 312-345): scan all
attributes, return Some only when all three were collected. -/
def find_caller_info (attrs : List Attr) : Option CallerInfo :=
  match attrs.foldl fciStep (none, none, none) with
  | (some cf, some cl, some ao) => some ⟨cf, cl, ao⟩
  | _ => none

/-- One iteration of the attribute loop in `find_function_name`
(dwarf.rs lines 347-365): collect name and linkage_name. -/
def ffnStep (s : Option AttrValue × Option AttrValue) (attr : Attr) :
    Option AttrValue × Option AttrValue :=
  match attr.name with
  | .nameAttr => (some attr.value, s.2)
  | .linkage_name => (s.1, some attr.value)
  | _ => s

/-- Embedding of `find_function_name`: linkage_name.or(name). -/
def find_function_name (attrs : List Attr) : Option AttrValue :=
  let s := attrs.foldl ffnStep (none, none)
  s.2.or s.1

/-- A line-program-header file entry with its directory and path name
already resolved to byte strings by the out-of-scope DWARF reader. -/
structure FileEntry where
  directory : Option (List Nat)
  path_name : List Nat
deriving DecidableEq

/-- The CU's line-program header, exposing header.file(index). -/
structure LineProgramHeaderM where
  fileEntry : Nat → Option FileEntry

/-- The CU's DIE store, exposing unit.entry(offset) as an attribute list. -/
structure UnitM where
  dieAt : Nat → Option (List Attr)

/-- Errors surfaced by the out-of-scope gimli reader. -/
inductive GimliError where
  | err
deriving DecidableEq

/-- dwarf.rs PerCuCache: per-compilation-unit file and function caches
plus the CU's header/unit handles. -/
structure PerCuCacheM where
  file_mapping : List (Nat × Nat)
  function_mapping : List (Nat × Nat)
  header : LineProgramHeaderM
  unit : UnitM

/-- Embedding of `PerCuCache::insert_file` (dwarf.rs lines 267-298).
The cache key is `file_index as u32`; the header lookup uses the full
u64 index.  On a header miss the sentinel is returned WITHOUT inserting
into the cache (the source returns before `entry.insert`). -/
def PerCuCacheM.insert_file (cache : PerCuCacheM) (conv : Converter)
    (file_index : Nat) : Nat × PerCuCacheM × Converter :=
  match alookup cache.file_mapping (asU32 file_index) with
  | some e => (e, cache, conv)
  | none =>
    match cache.header.fileEntry file_index with
    | none => (u32MAX, cache, conv)
    | some file =>
      let dc : Option Nat × Converter :=
        match file.directory with
        | some dir =>
          let r := conv.insert_string dir
          (some r.1, r.2)
        | none => (none, conv)
      let pr := dc.2.insert_string file.path_name
      let fr := insert_full pr.2.files ⟨dc.1, pr.1⟩
      (asU32 fr.1,
       { cache with
          file_mapping := binsert (asU32 file_index) (asU32 fr.1) cache.file_mapping },
       { pr.2 with files := fr.2 })

/-- Embedding of `PerCuCache::insert_function` (dwarf.rs lines 230-262).
The cache key is the DIE offset narrowed to u32; a missing DIE or a
non-string name attribute surfaces the reader's error. -/
def PerCuCacheM.insert_function (cache : PerCuCacheM) (conv : Converter)
    (die_offset : Nat) : Except GimliError (Nat × PerCuCacheM × Converter) :=
  match alookup cache.function_mapping (asU32 die_offset) with
  | some e => .ok (e, cache, conv)
  | none =>
    match cache.unit.dieAt die_offset with
    | none => .error .err
    | some die =>
      match find_function_name die with
      | some (.stringVal s) =>
        let nr := conv.insert_string s
        let fr := insert_full nr.2.functions ⟨nr.1⟩
        .ok (asU32 fr.1,
             { cache with
                function_mapping :=
                  binsert (asU32 die_offset) (asU32 fr.1) cache.function_mapping },
             { nr.2 with functions := fr.2 })
      | some _ => .error .err
      | none =>
        let fr := insert_full conv.functions ⟨u32MAX⟩
        .ok (asU32 fr.1,
             { cache with
                function_mapping :=
                  binsert (asU32 die_offset) (asU32 fr.1) cache.function_mapping },
             { conv with functions := fr.2 })

/-- Embedding of the caller-info resolution step of `process_dwarf_cu`
(dwarf.rs lines 95-106): the `(caller_file, caller_line, function_idx)`
triple for the DIE whose attributes are given, with (0,0,0) when
`find_caller_info` yields nothing. -/
def resolve_caller (cache : PerCuCacheM) (conv : Converter) (attrs : List Attr) :
    Except GimliError ((Nat × Nat × Nat) × PerCuCacheM × Converter) :=
  match find_caller_info attrs with
  | some ci =>
    let fr := cache.insert_file conv ci.call_file
    match fr.2.1.insert_function fr.2.2 ci.abstract_origin with
    | .ok (caller_idx, cache2, conv2) =>
      .ok ((fr.1, ci.call_line, caller_idx), cache2, conv2)
    | .error e => .error e
  | none => .ok ((0, 0, 0), cache, conv)

/-! ## converter/dwarf.rs: line program -/

/-- dwarf.rs LineProgramRow: address (u64) mapped to file index and line
(both already narrowed to u32). -/
structure LineProgramRow where
  address : Nat
  file_index : Nat
  line : Nat
deriving DecidableEq

/-- dwarf.rs LineSequence (`end` is a Lean keyword, hence endAddr). -/
structure LineSequence where
  start : Nat
  endAddr : Nat
  rows : List LineProgramRow
deriving DecidableEq

/-- One row as emitted by gimli's row iterator: the end-of-sequence flag,
the u64 address, the u64 file index, and the Option NonZeroU64 line. -/
structure RowEvent where
  end_sequence : Bool
  address : Nat
  file_index : Nat
  line : Option Nat
deriving DecidableEq

/-- One iteration of the row loop in `parse_line_program` (dwarf.rs lines
394-430): close or discard the buffered sequence on end-of-sequence;
otherwise coalesce the new row into the buffer (same-address overwrite,
then identical (file, line) suppression). -/
def plpStep (st : List LineSequence × List LineProgramRow) (ev : RowEvent) :
    List LineSequence × List LineProgramRow :=
  let sequences := st.1
  let sequence_rows := st.2
  if ev.end_sequence then
    match sequence_rows.head? with
    | some first =>
      if first.address = 0 then (sequences, [])
      else (sequences ++ [⟨first.address, ev.address, sequence_rows⟩], [])
    | none => (sequences, sequence_rows)
  else
    let address := ev.address
    let file_index := asU32 ev.file_index
    let line := asU32 (ev.line.getD 0)
    match sequence_rows.getLast? with
    | some last_row =>
      if last_row.address = address then
        (sequences, sequence_rows.dropLast ++ [⟨address, file_index, line⟩])
      else if last_row.file_index = file_index ∧ last_row.line = line then
        (sequences, sequence_rows)
      else
        (sequences, sequence_rows ++ [⟨address, file_index, line⟩])
    | none => (sequences, [⟨address, file_index, line⟩])

/-- Stable insertion into a start-sorted sequence list. -/
def insertSortedSeq (x : LineSequence) : List LineSequence → List LineSequence
  | [] => [x]
  | y :: ys => if x.start ≤ y.start then x :: y :: ys else y :: insertSortedSeq x ys

/-- The stable `sequences.sort_by_key(start)` of dwarf.rs line 431. -/
def sortByStart (l : List LineSequence) : List LineSequence :=
  l.foldr insertSortedSeq []

/-- Embedding of `parse_line_program` (dwarf.rs lines 388-434) over the
materialized row events: fold the row loop, drop any unfinished trailing
buffer, sort the finished sequences by start address. -/
def parse_line_program (events : List RowEvent) : List LineSequence :=
  sortByStart (events.foldl plpStep ([], [])).1

/-! ## converter/dwarf.rs: seeding, range selection, commit -/

/-- One iteration of the seeding loop of `process_dwarf_cu` (dwarf.rs
lines 68-82): resolve the row's file through the per-CU cache and insert
the row under the key `row.address as u32`. -/
def seedRow (acc : List (Nat × SourceLocation) × PerCuCacheM × Converter)
    (row : LineProgramRow) : List (Nat × SourceLocation) × PerCuCacheM × Converter :=
  let fr := acc.2.1.insert_file acc.2.2 row.file_index
  (binsert (asU32 row.address) ⟨fr.1, row.line, u32MAX, none⟩ acc.1, fr.2.1, fr.2.2)

/-- The full seeding pass over all sequences (dwarf.rs lines 67-82). -/
def seedSequences (cache : PerCuCacheM) (conv : Converter)
    (seqs : List LineSequence) : List (Nat × SourceLocation) × PerCuCacheM × Converter :=
  seqs.foldl (fun acc seq => seq.rows.foldl seedRow acc) ([], cache, conv)

/-- A gimli::Range as handed to `sub_ranges`: u64 begin and end. -/
structure GimliRange where
  begin : Nat
  endAddr : Nat
deriving DecidableEq

/-- The u32 core of `sub_ranges` (dwarf.rs lines 154-166): the first
seeded key at or after `e` bounds the selection exclusively, else the
selection is unbounded above; the lower bound is `b` inclusive. -/
def sub_ranges_u32 (ranges : List (Nat × SourceLocation)) (b e : Nat) :
    List (Nat × SourceLocation) :=
  match ranges.find? (fun p => e ≤ p.1) with
  | some firstAfter => ranges.filter (fun p => b ≤ p.1 ∧ p.1 < firstAfter.1)
  | none => ranges.filter (fun p => b ≤ p.1)

/-- Embedding of `sub_ranges`: both DIE range bounds are narrowed with
`as u32` before the map is consulted. -/
def sub_ranges (ranges : List (Nat × SourceLocation)) (range : GimliRange) :
    List (Nat × SourceLocation) :=
  sub_ranges_u32 ranges (asU32 range.begin) (asU32 range.endAddr)

/-- One iteration of the commit loop of `process_dwarf_cu` (dwarf.rs
lines 132-147): the vacant/occupied entry match on the global map. -/
def commitStep (g : List (Nat × SourceLocation)) (kv : Nat × SourceLocation) :
    List (Nat × SourceLocation) :=
  match alookup g kv.1 with
  | some _ => g
  | none => binsert kv.1 kv.2 g

/-- Embedding of the commit loop of `process_dwarf_cu` (dwarf.rs lines
132-147): per-CU entries are copied into the global ranges map only where
the key is still vacant; occupied keys silently keep the old value. -/
def commit_cu_ranges (global : List (Nat × SourceLocation))
    (cu : List (Nat × SourceLocation)) : List (Nat × SourceLocation) :=
  cu.foldl commitStep global

/-! ## Concrete fixtures used by witnesses and counterexamples -/

/-- A 32-byte all-zero buffer: a header with magic 0, version 0 and all
counts 0, followed by nothing. -/
def zeroHeaderBuf : List Nat := List.replicate 32 0

/-- A 56-byte buffer whose header declares one source location and two
ranges, with consistent section arithmetic (32 + 16 + 8 = 56). -/
def slRangesBuf : List Nat :=
  List.replicate 20 0 ++ [1, 0, 0, 0] ++ [2, 0, 0, 0] ++ List.replicate 28 0

/-- A per-CU cache over an empty CU: no cached entries, a line-program
header with no file table, a unit with no DIEs. -/
def emptyCuCache : PerCuCacheM :=
  ⟨[], [], ⟨fun _ => none⟩, ⟨fun _ => none⟩⟩

/-! ## Helper lemmas -/

theorem align_to_eight_le_seven (n : Nat) : align_to_eight n ≤ 7 := by
  have h8 : n % 8 < 8 := Nat.mod_lt _ (by omega)
  simp only [align_to_eight]
  split <;> omega

theorem align_to_eight_of_mod_eight (n : Nat) (h : n % 8 = 0) :
    align_to_eight n = 0 := by
  simp [align_to_eight, h]

theorem alookup_binsert (l : List (Nat × α)) (k k' : Nat) (v : α) :
    alookup (binsert k v l) k' = if k = k' then some v else alookup l k' := by
  induction l with
  | nil => simp [binsert, alookup]
  | cons hd tl ih =>
    obtain ⟨k0, v0⟩ := hd
    unfold binsert
    by_cases hlt : k < k0
    · simp only [if_pos hlt, alookup]
    · by_cases heq : k = k0
      · subst heq
        simp only [if_neg hlt, if_pos rfl, alookup]
        by_cases hkk : k = k'
        · simp [hkk]
        · simp [hkk]
      · simp only [if_neg hlt, if_neg heq, alookup]
        by_cases hk0 : k0 = k'
        · have hkk : ¬(k = k') := by omega
          simp [hk0, hkk]
        · simp [hk0, ih]

/-! ## Claim theorems -/

/-- Claim C1 (code evidence): `Format::parse` performs neither the magic
nor the version check — a well-aligned all-zero 32-byte buffer, whose
header has magic 0 (neither the canonical nor the flipped magic) and
version 0 (not the supported version 1000), parses successfully. -/
theorem c1_parse_ignores_magic_and_version :
    (Symbolic.Format.parse 0 Symbolic.zeroHeaderBuf).isOk = true ∧
    (Symbolic.decodeHeader Symbolic.zeroHeaderBuf).version ≠ Symbolic.SYMCACHE_VERSION ∧
    (Symbolic.decodeHeader Symbolic.zeroHeaderBuf).magic ≠ Symbolic.SYMCACHE_MAGIC ∧
    (Symbolic.decodeHeader Symbolic.zeroHeaderBuf).magic ≠ Symbolic.SYMCACHE_MAGIC_FLIPPED := by
  decide

/-- Claim C2 (counterexample): a 56-byte buffer whose header declares one
source location and two ranges passes `Format::parse`, although
num_ranges exceeds num_source_locations — the claimed rejection does not
happen. -/
theorem c2_counterexample :
    (Symbolic.Format.parse 0 Symbolic.slRangesBuf).isOk = true ∧
    (Symbolic.decodeHeader Symbolic.slRangesBuf).num_source_locations
      < (Symbolic.decodeHeader Symbolic.slRangesBuf).num_ranges := by
  decide

/-- Claim C2 (amended): `Format::parse` only compares the aligned section
byte sizes: every accepted buffer satisfies
ranges_size ≤ source_locations_size, which bounds num_ranges by
4 * num_source_locations; and a buffer whose aligned ranges section is
larger than the aligned source-locations section is rejected with
BadFormatLength. -/
theorem c2_parse_size_check (base : Nat) (buf : List Nat) :
    ((Symbolic.Format.parse base buf).isOk = true →
      Symbolic.ranges_size (Symbolic.decodeHeader buf)
          ≤ Symbolic.source_locations_size (Symbolic.decodeHeader buf) ∧
      (Symbolic.decodeHeader buf).num_ranges
          ≤ 4 * (Symbolic.decodeHeader buf).num_source_locations) ∧
    (Symbolic.align_to_eight base = 0 → Symbolic.header_size ≤ buf.length →
      Symbolic.source_locations_size (Symbolic.decodeHeader buf)
          < Symbolic.ranges_size (Symbolic.decodeHeader buf) →
      Symbolic.Format.parse base buf = .error .badFormatLength) := by
  constructor
  · intro hf
    simp only [Symbolic.Format.parse] at hf
    split at hf
    · exact absurd hf (by decide)
    · split at hf
      · exact absurd hf (by decide)
      · split at hf
        · exact absurd hf (by decide)
        · rename_i hcond
          push_neg at hcond
          refine ⟨by omega, ?_⟩
          have hsl : Symbolic.source_locations_size (Symbolic.decodeHeader buf)
              = 16 * (Symbolic.decodeHeader buf).num_source_locations := by
            unfold Symbolic.source_locations_size
            rw [Symbolic.align_to_eight_of_mod_eight _ (by omega)]
            omega
          have hr : 4 * (Symbolic.decodeHeader buf).num_ranges
              ≤ Symbolic.ranges_size (Symbolic.decodeHeader buf) :=
            Nat.le_add_right _ _
          omega
  · intro h1 h2 h3
    simp only [Symbolic.Format.parse]
    rw [if_neg (by omega), if_neg (by omega), if_pos (Or.inr h3)]

/-- Claim C2 (witness): the amended theorem applied to the concrete
56-byte counterexample buffer (accepted side) and to a buffer whose
header declares zero source locations and three ranges (rejected side). -/
theorem c2_witness :
    (Symbolic.ranges_size (Symbolic.decodeHeader Symbolic.slRangesBuf)
        ≤ Symbolic.source_locations_size (Symbolic.decodeHeader Symbolic.slRangesBuf) ∧
      (Symbolic.decodeHeader Symbolic.slRangesBuf).num_ranges
        ≤ 4 * (Symbolic.decodeHeader Symbolic.slRangesBuf).num_source_locations) ∧
    Symbolic.Format.parse 0
        (List.replicate 24 0 ++ [3, 0, 0, 0] ++ List.replicate 4 0)
      = .error .badFormatLength := by
  refine ⟨(c2_parse_size_check 0 Symbolic.slRangesBuf).1 (by decide), ?_⟩
  exact (c2_parse_size_check 0
      (List.replicate 24 0 ++ [3, 0, 0, 0] ++ List.replicate 4 0)).2
      (by decide) (by decide) (by decide)

/-- Claim C3 (counterexample): calling `PerCuCache::insert_file` on an
uncached CU-local file index that is absent from the line-program header
returns the sentinel, but the sentinel is NOT cached — the per-CU file
mapping still has no entry for that index afterwards (the source returns
before `entry.insert`). -/
theorem c3_counterexample :
    (Symbolic.emptyCuCache.insert_file Symbolic.Converter.new 7).1 = Symbolic.u32MAX ∧
    Symbolic.alookup
      (Symbolic.emptyCuCache.insert_file Symbolic.Converter.new 7).2.1.file_mapping 7
      = none := by
  exact ⟨rfl, rfl⟩

/-- Claim C3 (amended): when the CU-local file index is not cached and is
absent from the CU's line-program header, `insert_file` returns the
sentinel u32::MAX and leaves both the per-CU cache (in particular its
file mapping) and the converter completely unchanged: no mapping is
recorded. -/
theorem c3_insert_file_header_miss (cache : Symbolic.PerCuCacheM)
    (conv : Symbolic.Converter) (i : Nat)
    (h1 : Symbolic.alookup cache.file_mapping (Symbolic.asU32 i) = none)
    (h2 : cache.header.fileEntry i = none) :
    cache.insert_file conv i = (Symbolic.u32MAX, cache, conv) := by
  unfold Symbolic.PerCuCacheM.insert_file
  rw [h1, h2]

/-- Claim C3 (witness): the amended theorem applied to the empty per-CU
cache and file index 7. -/
theorem c3_witness :
    Symbolic.emptyCuCache.insert_file Symbolic.Converter.new 7
      = (Symbolic.u32MAX, Symbolic.emptyCuCache, Symbolic.Converter.new) :=
  c3_insert_file_header_miss Symbolic.emptyCuCache Symbolic.Converter.new 7 rfl rfl

theorem fciStep_fst (s : Option Nat × Option Nat × Option Nat) (a : Attr)
    (h : a.name ≠ AttrName.call_file) : (fciStep s a).1 = s.1 := by
  rcases a with ⟨an, av⟩
  cases an with
  | call_file => exact absurd rfl h
  | call_line => rfl
  | abstract_origin => cases av <;> rfl
  | nameAttr => rfl
  | linkage_name => rfl
  | otherAttr => rfl

theorem fciStep_snd (s : Option Nat × Option Nat × Option Nat) (a : Attr)
    (h : a.name ≠ AttrName.call_line) : (fciStep s a).2.1 = s.2.1 := by
  rcases a with ⟨an, av⟩
  cases an with
  | call_file => cases av <;> rfl
  | call_line => exact absurd rfl h
  | abstract_origin => cases av <;> rfl
  | nameAttr => rfl
  | linkage_name => rfl
  | otherAttr => rfl

theorem fciStep_thd (s : Option Nat × Option Nat × Option Nat) (a : Attr)
    (h : a.name ≠ AttrName.abstract_origin) : (fciStep s a).2.2 = s.2.2 := by
  rcases a with ⟨an, av⟩
  cases an with
  | call_file => cases av <;> rfl
  | call_line => rfl
  | abstract_origin => exact absurd rfl h
  | nameAttr => rfl
  | linkage_name => rfl
  | otherAttr => rfl

theorem foldl_fci_fst_none (attrs : List Attr) :
    ∀ s, (∀ a ∈ attrs, a.name ≠ AttrName.call_file) → s.1 = none →
      (attrs.foldl fciStep s).1 = none := by
  induction attrs with
  | nil => intro s _ hs; exact hs
  | cons hd tl ih =>
    intro s h hs
    simp only [List.foldl_cons]
    exact ih _ (fun a ha => h a (List.mem_cons_of_mem _ ha))
      ((fciStep_fst s hd (h hd (List.mem_cons_self _ _))).trans hs)

theorem foldl_fci_snd_none (attrs : List Attr) :
    ∀ s, (∀ a ∈ attrs, a.name ≠ AttrName.call_line) → s.2.1 = none →
      (attrs.foldl fciStep s).2.1 = none := by
  induction attrs with
  | nil => intro s _ hs; exact hs
  | cons hd tl ih =>
    intro s h hs
    simp only [List.foldl_cons]
    exact ih _ (fun a ha => h a (List.mem_cons_of_mem _ ha))
      ((fciStep_snd s hd (h hd (List.mem_cons_self _ _))).trans hs)

theorem foldl_fci_thd_none (attrs : List Attr) :
    ∀ s, (∀ a ∈ attrs, a.name ≠ AttrName.abstract_origin) → s.2.2 = none →
      (attrs.foldl fciStep s).2.2 = none := by
  induction attrs with
  | nil => intro s _ hs; exact hs
  | cons hd tl ih =>
    intro s h hs
    simp only [List.foldl_cons]
    exact ih _ (fun a ha => h a (List.mem_cons_of_mem _ ha))
      ((fciStep_thd s hd (h hd (List.mem_cons_self _ _))).trans hs)

theorem find_caller_info_none_of_missing (attrs : List Attr)
    (h : (∀ a ∈ attrs, a.name ≠ AttrName.call_file) ∨
         (∀ a ∈ attrs, a.name ≠ AttrName.call_line) ∨
         (∀ a ∈ attrs, a.name ≠ AttrName.abstract_origin)) :
    find_caller_info attrs = none := by
  unfold find_caller_info
  rcases hfold : attrs.foldl fciStep (none, none, none) with ⟨cf, cl, ao⟩
  rcases h with h | h | h
  · have := foldl_fci_fst_none attrs (none, none, none) h rfl
    rw [hfold] at this
    simp only at this
    subst this
    cases cl <;> cases ao <;> rfl
  · have := foldl_fci_snd_none attrs (none, none, none) h rfl
    rw [hfold] at this
    simp only at this
    subst this
    cases cf <;> cases ao <;> rfl
  · have := foldl_fci_thd_none attrs (none, none, none) h rfl
    rw [hfold] at this
    simp only at this
    subst this
    cases cf <;> cases cl <;> rfl

/-- Claim C4: the DIE-walker caller-info step resolves caller_file via
the per-CU file insert of DW_AT_call_file and function_idx via the per-CU
function insert of the DW_AT_abstract_origin referent only when
`find_caller_info` collected all of DW_AT_call_file, DW_AT_call_line and
DW_AT_abstract_origin; if any of the three attributes is absent from the
DIE, the caller triple is (file=0, line=0, function=0) and no state is
touched. -/
theorem c4_caller_requires_all_three :
    (∀ (cache : Symbolic.PerCuCacheM) (conv : Symbolic.Converter) (attrs : List Symbolic.Attr),
      ((∀ a ∈ attrs, a.name ≠ Symbolic.AttrName.call_file) ∨
       (∀ a ∈ attrs, a.name ≠ Symbolic.AttrName.call_line) ∨
       (∀ a ∈ attrs, a.name ≠ Symbolic.AttrName.abstract_origin)) →
      Symbolic.resolve_caller cache conv attrs = .ok ((0, 0, 0), cache, conv)) ∧
    (∀ (cache : Symbolic.PerCuCacheM) (conv : Symbolic.Converter)
        (attrs : List Symbolic.Attr) (ci : Symbolic.CallerInfo),
      Symbolic.find_caller_info attrs = some ci →
      Symbolic.resolve_caller cache conv attrs =
        (match (cache.insert_file conv ci.call_file).2.1.insert_function
            (cache.insert_file conv ci.call_file).2.2 ci.abstract_origin with
         | .ok (caller_idx, cache2, conv2) =>
           .ok (((cache.insert_file conv ci.call_file).1, ci.call_line, caller_idx),
                cache2, conv2)
         | .error e => .error e)) := by
  constructor
  · intro cache conv attrs h
    unfold Symbolic.resolve_caller
    rw [find_caller_info_none_of_missing attrs h]
  · intro cache conv attrs ci hci
    unfold Symbolic.resolve_caller
    rw [hci]

/-- Claim C4 (witness): on a DIE carrying only DW_AT_call_line and
DW_AT_abstract_origin (no DW_AT_call_file) the triple is (0,0,0); on a
DIE carrying all three, the step runs the per-CU inserts (here the
abstract-origin DIE is unreadable, so the reader's error surfaces). -/
theorem c4_witness :
    Symbolic.resolve_caller Symbolic.emptyCuCache Symbolic.Converter.new
        [⟨Symbolic.AttrName.call_line, Symbolic.AttrValue.udataVal 7⟩,
         ⟨Symbolic.AttrName.abstract_origin, Symbolic.AttrValue.unitRefVal 3⟩]
      = .ok ((0, 0, 0), Symbolic.emptyCuCache, Symbolic.Converter.new) ∧
    Symbolic.resolve_caller Symbolic.emptyCuCache Symbolic.Converter.new
        [⟨Symbolic.AttrName.call_file, Symbolic.AttrValue.fileIndexVal 1⟩,
         ⟨Symbolic.AttrName.call_line, Symbolic.AttrValue.udataVal 9⟩,
         ⟨Symbolic.AttrName.abstract_origin, Symbolic.AttrValue.unitRefVal 3⟩]
      = .error .err :=
  ⟨c4_caller_requires_all_three.1 Symbolic.emptyCuCache Symbolic.Converter.new _
      (Or.inl (by decide)),
   c4_caller_requires_all_three.2 Symbolic.emptyCuCache Symbolic.Converter.new _
      ⟨1, 9, 3⟩ (by decide)⟩

theorem commit_cons (g : List (Nat × SourceLocation)) (hd : Nat × SourceLocation)
    (tl : List (Nat × SourceLocation)) :
    commit_cu_ranges g (hd :: tl) = commit_cu_ranges (commitStep g hd) tl := rfl

theorem commit_preserves (cu : List (Nat × SourceLocation)) :
    ∀ g k v, alookup g k = some v → alookup (commit_cu_ranges g cu) k = some v := by
  induction cu with
  | nil => intro g k v h; exact h
  | cons hd tl ih =>
    intro g k v h
    rw [commit_cons]
    refine ih _ k v ?_
    unfold commitStep
    cases hh : alookup g hd.1 with
    | some w => exact h
    | none =>
      have hne : hd.1 ≠ k := by
        intro he
        rw [he] at hh
        rw [h] at hh
        cases hh
      rw [alookup_binsert, if_neg hne]
      exact h

theorem commit_vacant (cu : List (Nat × SourceLocation)) :
    ∀ g k, alookup g k = none →
      alookup (commit_cu_ranges g cu) k = alookup cu k := by
  induction cu with
  | nil => intro g k h; exact h
  | cons hd tl ih =>
    intro g k h
    obtain ⟨k0, v0⟩ := hd
    rw [commit_cons]
    unfold commitStep
    cases hh : alookup g k0 with
    | some w =>
      have hne : k0 ≠ k := by
        intro he
        rw [he, h] at hh
        cases hh
      simp only [alookup, if_neg hne]
      exact ih g k h
    | none =>
      by_cases hk : k0 = k
      · subst hk
        simp only [alookup, if_pos rfl]
        exact commit_preserves tl _ k0 v0 (by rw [alookup_binsert, if_pos rfl])
      · simp only [alookup, if_neg hk]
        exact ih _ k (by rw [alookup_binsert, if_neg hk]; exact h)

/-- Claim C5: committing a CU's PC-to-source-location entries into the
global ranges map keeps the first-inserted value for every PC already
present (the newer entry is dropped) and inserts entries for PCs not yet
present. -/
theorem c5_commit_keeps_first (g cu : List (Nat × Symbolic.SourceLocation)) (k : Nat) :
    (∀ v, Symbolic.alookup g k = some v →
      Symbolic.alookup (Symbolic.commit_cu_ranges g cu) k = some v) ∧
    (Symbolic.alookup g k = none →
      Symbolic.alookup (Symbolic.commit_cu_ranges g cu) k = Symbolic.alookup cu k) :=
  ⟨fun v h => commit_preserves cu g k v h, fun h => commit_vacant cu g k h⟩

/-- Claim C5 (witness): with the PC 4096 already bound globally, the CU's
colliding entry is dropped and its fresh entry at 8192 is inserted. -/
theorem c5_witness :
    Symbolic.alookup
        (Symbolic.commit_cu_ranges [(4096, ⟨1, 10, 0, none⟩)]
          [(4096, ⟨2, 20, 0, none⟩), (8192, ⟨3, 30, 0, none⟩)]) 4096
      = some ⟨1, 10, 0, none⟩ ∧
    Symbolic.alookup
        (Symbolic.commit_cu_ranges [(4096, ⟨1, 10, 0, none⟩)]
          [(4096, ⟨2, 20, 0, none⟩), (8192, ⟨3, 30, 0, none⟩)]) 8192
      = Symbolic.alookup [(4096, ⟨2, 20, 0, none⟩), (8192, ⟨3, 30, 0, none⟩)] 8192 :=
  ⟨(c5_commit_keeps_first [(4096, ⟨1, 10, 0, none⟩)]
      [(4096, ⟨2, 20, 0, none⟩), (8192, ⟨3, 30, 0, none⟩)] 4096).1 ⟨1, 10, 0, none⟩ rfl,
   (c5_commit_keeps_first [(4096, ⟨1, 10, 0, none⟩)]
      [(4096, ⟨2, 20, 0, none⟩), (8192, ⟨3, 30, 0, none⟩)] 8192).2 rfl⟩

theorem mem_insertSortedSeq (x s : LineSequence) (l : List LineSequence) :
    s ∈ insertSortedSeq x l ↔ s = x ∨ s ∈ l := by
  induction l with
  | nil => simp [insertSortedSeq]
  | cons hd tl ih =>
    unfold insertSortedSeq
    by_cases h : x.start ≤ hd.start
    · simp [h]
    · simp only [if_neg h, List.mem_cons, ih]
      tauto

theorem mem_sortByStart (s : LineSequence) (l : List LineSequence) :
    s ∈ sortByStart l ↔ s ∈ l := by
  induction l with
  | nil => simp [sortByStart]
  | cons hd tl ih =>
    have : sortByStart (hd :: tl) = insertSortedSeq hd (sortByStart tl) := rfl
    rw [this, mem_insertSortedSeq]
    simp [ih, eq_comm]

theorem plpStep_preserves_nonzero (seqs : List LineSequence)
    (buf : List LineProgramRow) (ev : RowEvent)
    (h : ∀ s ∈ seqs, s.start ≠ 0) :
    ∀ s ∈ (plpStep (seqs, buf) ev).1, s.start ≠ 0 := by
  intro s hs
  unfold plpStep at hs
  by_cases hev : ev.end_sequence = true
  · rw [if_pos hev] at hs
    cases hbuf : buf.head? with
    | none => rw [hbuf] at hs; exact h s hs
    | some first =>
      rw [hbuf] at hs
      dsimp only at hs
      by_cases h0 : first.address = 0
      · rw [if_pos h0] at hs
        exact h s hs
      · rw [if_neg h0] at hs
        have hs2 : s ∈ seqs ++ [⟨first.address, ev.address, buf⟩] := hs
        rcases List.mem_append.mp hs2 with h1 | h1
        · exact h s h1
        · have : s = ⟨first.address, ev.address, buf⟩ := by simpa using h1
          rw [this]
          exact h0
  · rw [if_neg hev] at hs
    cases hbuf : buf.getLast? with
    | none => rw [hbuf] at hs; exact h s hs
    | some last_row =>
      rw [hbuf] at hs
      dsimp only at hs
      split_ifs at hs <;> exact h s hs

theorem foldl_plp_nonzero (events : List RowEvent) :
    ∀ st : List LineSequence × List LineProgramRow,
      (∀ s ∈ st.1, s.start ≠ 0) →
      ∀ s ∈ (events.foldl plpStep st).1, s.start ≠ 0 := by
  induction events with
  | nil => intro st h; exact h
  | cons hd tl ih =>
    intro st h
    simp only [List.foldl_cons]
    exact ih _ (plpStep_preserves_nonzero st.1 st.2 hd h)

/-- Claim C7: `parse_line_program` drops every sequence whose start (the
first buffered row's address) is 0 — no output sequence starts at 0, and
the end-of-sequence step on a buffer whose first row has address 0
discards the buffered rows while leaving the finished sequences alone. -/
theorem c7_zero_start_dropped :
    (∀ (events : List Symbolic.RowEvent) (s : Symbolic.LineSequence),
      s ∈ Symbolic.parse_line_program events → s.start ≠ 0) ∧
    (∀ (seqs : List Symbolic.LineSequence) (buf : List Symbolic.LineProgramRow)
        (ev : Symbolic.RowEvent) (r : Symbolic.LineProgramRow),
      ev.end_sequence = true → buf.head? = some r → r.address = 0 →
      Symbolic.plpStep (seqs, buf) ev = (seqs, [])) := by
  constructor
  · intro events s hs
    rw [Symbolic.parse_line_program, Symbolic.mem_sortByStart] at hs
    exact Symbolic.foldl_plp_nonzero events ([], []) (by simp) s hs
  · intro seqs buf ev r h1 h2 h3
    unfold Symbolic.plpStep
    rw [if_pos h1, h2]
    dsimp only
    rw [if_pos h3]

/-- Claim C7 (witness): a sequence whose rows start at address 0 vanishes
from the output while a later valid sequence survives, and the
end-of-sequence step discards a zero-start buffer. -/
theorem c7_witness :
    (⟨16, 24, [⟨16, 1, 5⟩]⟩ : Symbolic.LineSequence).start ≠ 0 ∧
    Symbolic.plpStep ([], [⟨0, 1, 5⟩]) ⟨true, 8, 0, none⟩ = ([], []) :=
  ⟨c7_zero_start_dropped.1
      [⟨false, 0, 1, some 5⟩, ⟨true, 8, 0, none⟩,
       ⟨false, 16, 1, some 5⟩, ⟨true, 24, 0, none⟩]
      ⟨16, 24, [⟨16, 1, 5⟩]⟩ (by decide),
   c7_zero_start_dropped.2 [] [⟨0, 1, 5⟩] ⟨true, 8, 0, none⟩ ⟨0, 1, 5⟩ rfl rfl rfl⟩

/-- Claim C6: while rows are appended, a new row at the previous row's
address overwrites the previous row's (file_index, line) in place, a new
row repeating the previous (file_index, line) at a new address is
dropped, and the concrete program (0x3000,f=1,l=5), (0x3000,f=1,l=6),
(0x3004,f=1,l=6), (0x3008,f=1,l=6) followed by end-of-sequence at 0x300c
yields exactly one row, at 0x3000 with (file=1, line=6). -/
theorem c6_row_coalescing :
    (∀ (seqs : List Symbolic.LineSequence) (buf : List Symbolic.LineProgramRow)
        (ev : Symbolic.RowEvent) (r : Symbolic.LineProgramRow),
      ev.end_sequence = false → buf.getLast? = some r → r.address = ev.address →
      Symbolic.plpStep (seqs, buf) ev
        = (seqs, buf.dropLast
            ++ [⟨ev.address, Symbolic.asU32 ev.file_index,
                 Symbolic.asU32 (ev.line.getD 0)⟩])) ∧
    (∀ (seqs : List Symbolic.LineSequence) (buf : List Symbolic.LineProgramRow)
        (ev : Symbolic.RowEvent) (r : Symbolic.LineProgramRow),
      ev.end_sequence = false → buf.getLast? = some r → r.address ≠ ev.address →
      r.file_index = Symbolic.asU32 ev.file_index →
      r.line = Symbolic.asU32 (ev.line.getD 0) →
      Symbolic.plpStep (seqs, buf) ev = (seqs, buf)) ∧
    Symbolic.parse_line_program
        [⟨false, 0x3000, 1, some 5⟩, ⟨false, 0x3000, 1, some 6⟩,
         ⟨false, 0x3004, 1, some 6⟩, ⟨false, 0x3008, 1, some 6⟩,
         ⟨true, 0x300c, 0, none⟩]
      = [⟨0x3000, 0x300c, [⟨0x3000, 1, 6⟩]⟩] := by
  refine ⟨?_, ?_, by decide⟩
  · intro seqs buf ev r h1 h2 h3
    unfold Symbolic.plpStep
    rw [if_neg (by simp [h1]), h2]
    dsimp only
    rw [if_pos h3]
  · intro seqs buf ev r h1 h2 h3 h4 h5
    unfold Symbolic.plpStep
    rw [if_neg (by simp [h1]), h2]
    dsimp only
    rw [if_neg h3, if_pos ⟨h4, h5⟩]

/-- Claim C6 (witness): the overwrite branch applied to a buffer ending
at address 16 and a new row at 16, and the drop branch applied to a new
row at 20 repeating (file=1, line=6). -/
theorem c6_witness :
    Symbolic.plpStep ([], [⟨16, 1, 5⟩]) ⟨false, 16, 1, some 6⟩ = ([], [⟨16, 1, 6⟩]) ∧
    Symbolic.plpStep ([], [⟨16, 1, 6⟩]) ⟨false, 20, 1, some 6⟩ = ([], [⟨16, 1, 6⟩]) :=
  ⟨c6_row_coalescing.1 [] [⟨16, 1, 5⟩] ⟨false, 16, 1, some 6⟩ ⟨16, 1, 5⟩ rfl rfl rfl,
   c6_row_coalescing.2.1 [] [⟨16, 1, 6⟩] ⟨false, 20, 1, some 6⟩ ⟨16, 1, 6⟩ rfl rfl
     (by decide) rfl rfl⟩

theorem find_ge_min (l : List (Nat × SourceLocation)) (e : Nat)
    (hs : keySorted l) (x : Nat × SourceLocation)
    (hfind : l.find? (fun p => e ≤ p.1) = some x) :
    ∀ p ∈ l, e ≤ p.1 → x.1 ≤ p.1 := by
  induction l with
  | nil => cases hfind
  | cons hd tl ih =>
    rw [keySorted, List.pairwise_cons] at hs
    by_cases hle : e ≤ hd.1
    · rw [List.find?_cons_of_pos _ (by simpa using hle)] at hfind
      injection hfind with hx
      subst hx
      intro p hp _
      rcases List.mem_cons.mp hp with h1 | h1
      · rw [h1]
      · exact Nat.le_of_lt (hs.1 p h1)
    · rw [List.find?_cons_of_neg _ (by simpa using hle)] at hfind
      intro p hp hep
      rcases List.mem_cons.mp hp with h1 | h1
      · rw [h1] at hep; exact absurd hep hle
      · exact ih (by rw [keySorted]; exact hs.2) hfind p h1 hep

theorem find_ge_none (l : List (Nat × SourceLocation)) (e : Nat)
    (hfind : l.find? (fun p => e ≤ p.1) = none) :
    ∀ p ∈ l, p.1 < e := by
  intro p hp
  have := List.find?_eq_none.mp hfind p hp
  simpa using Nat.lt_of_not_le (by simpa using this)

/-- Claim C8: on a seeded (strictly key-sorted) per-CU range map and a
DIE range [b, e), the entries `sub_ranges` selects — lower bound b
inclusive, upper bound the first seeded key at or after e exclusive
(unbounded when none exists) — are exactly the seeded entries whose keys
fall within [b, e). -/
theorem c8_sub_ranges_exact (l : List (Nat × Symbolic.SourceLocation))
    (hs : Symbolic.keySorted l) (b e : Nat) (_hbe : b ≤ e) :
    Symbolic.sub_ranges_u32 l b e = l.filter (fun p => b ≤ p.1 ∧ p.1 < e) := by
  unfold Symbolic.sub_ranges_u32
  cases hfind : l.find? (fun p => e ≤ p.1) with
  | none =>
    refine List.filter_congr ?_
    intro p hp
    have hlt := Symbolic.find_ge_none l e hfind p hp
    simp only [decide_eq_decide]
    exact ⟨fun hb => ⟨hb, hlt⟩, fun hb => hb.1⟩
  | some x =>
    have hx : e ≤ x.1 := by
      have := List.find?_some hfind
      simpa using this
    have hmin := Symbolic.find_ge_min l e hs x hfind
    refine List.filter_congr ?_
    intro p hp
    simp only [decide_eq_decide]
    constructor
    · rintro ⟨hb, hlt⟩
      refine ⟨hb, ?_⟩
      by_contra hge
      push_neg at hge
      exact absurd hlt (Nat.not_lt.mpr (hmin p hp hge))
    · rintro ⟨hb, hlt⟩
      exact ⟨hb, Nat.lt_of_lt_of_le hlt hx⟩

/-- Claim C8 (witness): the exact-interval theorem applied to the sorted
map with keys 5, 9, 12 and the DIE range [6, 10): only the entry at 9 is
selected. -/
theorem c8_witness :
    Symbolic.sub_ranges_u32
        [(5, ⟨0, 0, 0, none⟩), (9, ⟨1, 1, 1, none⟩), (12, ⟨2, 2, 2, none⟩)] 6 10
      = List.filter (fun p => 6 ≤ p.1 ∧ p.1 < 10)
          [(5, ⟨0, 0, 0, none⟩), (9, ⟨1, 1, 1, none⟩), (12, ⟨2, 2, 2, none⟩)] :=
  c8_sub_ranges_exact
    [(5, ⟨0, 0, 0, none⟩), (9, ⟨1, 1, 1, none⟩), (12, ⟨2, 2, 2, none⟩)]
    (by rw [Symbolic.keySorted]; decide) 6 10 (by decide)

theorem get_index_of_append_self (l : List (List Nat × StringRec))
    (s : List Nat) (r : StringRec) (h : get_index_of l s = none) :
    get_index_of (l ++ [(s, r)]) s = some l.length := by
  induction l with
  | nil => simp [get_index_of]
  | cons p rest ih =>
    rw [List.cons_append]
    unfold get_index_of at h ⊢
    by_cases hp : p.1 = s
    · rw [if_pos hp] at h
      cases h
    · rw [if_neg hp] at h
      rw [if_neg hp, ih (Option.map_eq_none.mp h)]
      simp

/-- Claim C9: two consecutive `Converter::insert_string` calls with the
same byte string return the same index; when the string is new, the
first insert grows the string table by exactly one and appends the bytes
to the blob, and the second insert changes neither. -/
theorem c9_insert_string_idempotent (c : Symbolic.Converter) (v : List Nat) :
    ((c.insert_string v).1 = ((c.insert_string v).2.insert_string v).1) ∧
    (Symbolic.get_index_of c.strings v = none →
      (c.insert_string v).2.strings.length = c.strings.length + 1 ∧
      (c.insert_string v).2.string_bytes = c.string_bytes ++ v ∧
      ((c.insert_string v).2.insert_string v).2.strings.length
        = (c.insert_string v).2.strings.length ∧
      ((c.insert_string v).2.insert_string v).2.string_bytes
        = (c.insert_string v).2.string_bytes) := by
  cases h : Symbolic.get_index_of c.strings v with
  | some i =>
    constructor
    · simp only [Symbolic.Converter.insert_string, h]
    · intro hnone
      exact Option.noConfusion hnone
  | none =>
    have h2 : Symbolic.get_index_of
        (c.strings ++ [(v, ⟨Symbolic.asU32 c.string_bytes.length, Symbolic.asU32 v.length⟩)]) v
        = some c.strings.length :=
      Symbolic.get_index_of_append_self c.strings v _ h
    constructor
    · simp only [Symbolic.Converter.insert_string, h, h2]
    · intro _
      simp only [Symbolic.Converter.insert_string, h, h2]
      simp

/-- Claim C9 (witness): the idempotence theorem applied to the empty
converter and the byte string [104, 105]. -/
theorem c9_witness :
    ((Symbolic.Converter.new.insert_string [104, 105]).1
      = ((Symbolic.Converter.new.insert_string [104, 105]).2.insert_string [104, 105]).1) ∧
    ((Symbolic.Converter.new.insert_string [104, 105]).2.strings.length
        = Symbolic.Converter.new.strings.length + 1 ∧
      (Symbolic.Converter.new.insert_string [104, 105]).2.string_bytes
        = Symbolic.Converter.new.string_bytes ++ [104, 105] ∧
      ((Symbolic.Converter.new.insert_string [104, 105]).2.insert_string [104, 105]).2.strings.length
        = (Symbolic.Converter.new.insert_string [104, 105]).2.strings.length ∧
      ((Symbolic.Converter.new.insert_string [104, 105]).2.insert_string [104, 105]).2.string_bytes
        = (Symbolic.Converter.new.insert_string [104, 105]).2.string_bytes) :=
  ⟨(c9_insert_string_idempotent Symbolic.Converter.new [104, 105]).1,
   (c9_insert_string_idempotent Symbolic.Converter.new [104, 105]).2 rfl⟩

theorem binsert_collapse (m : List (Nat × α)) (k : Nat) (v1 v2 : α) :
    binsert k v2 (binsert k v1 m) = binsert k v2 m := by
  induction m with
  | nil => simp [binsert]
  | cons hd tl ih =>
    obtain ⟨k0, v0⟩ := hd
    by_cases h1 : k < k0
    · simp [binsert, h1]
    · by_cases h2 : k = k0
      · subst h2
        simp [binsert, h1]
      · simp [binsert, h1, h2, ih]

/-- Claim C10: line-row addresses and DIE range bounds are truncated to
32 bits before use — the seeding step keys each row at address mod 2^32,
two rows whose addresses are congruent modulo 2^32 collapse onto a single
map entry (the later row wins), and `sub_ranges` computes its selection
interval from begin mod 2^32 and end mod 2^32, not the 64-bit bounds. -/
theorem c10_address_truncation :
    (∀ (ranges : List (Nat × Symbolic.SourceLocation)) (range : Symbolic.GimliRange),
      Symbolic.sub_ranges ranges range
        = Symbolic.sub_ranges_u32 ranges (range.begin % 4294967296)
            (range.endAddr % 4294967296)) ∧
    (∀ (acc : List (Nat × Symbolic.SourceLocation)
          × Symbolic.PerCuCacheM × Symbolic.Converter)
        (row : Symbolic.LineProgramRow),
      (Symbolic.seedRow acc row).1
        = Symbolic.binsert (row.address % 4294967296)
            ⟨(acc.2.1.insert_file acc.2.2 row.file_index).1, row.line,
             Symbolic.u32MAX, none⟩ acc.1) ∧
    (∀ (m : List (Nat × Symbolic.SourceLocation)) (a1 a2 : Nat)
        (sl1 sl2 : Symbolic.SourceLocation),
      Symbolic.asU32 a1 = Symbolic.asU32 a2 →
      Symbolic.binsert (Symbolic.asU32 a2) sl2
          (Symbolic.binsert (Symbolic.asU32 a1) sl1 m)
        = Symbolic.binsert (Symbolic.asU32 a2) sl2 m) ∧
    (Symbolic.seedSequences Symbolic.emptyCuCache Symbolic.Converter.new
        [⟨4096, 4294971392, [⟨4096, 1, 5⟩, ⟨4294971392, 1, 6⟩]⟩]).1
      = [(4096, ⟨Symbolic.u32MAX, 6, Symbolic.u32MAX, none⟩)] := by
  refine ⟨fun ranges range => rfl, fun acc row => rfl, ?_, by decide⟩
  intro m a1 a2 sl1 sl2 h
  rw [h]
  exact Symbolic.binsert_collapse m (Symbolic.asU32 a2) sl1 sl2

/-- Claim C10 (witness): the collapse part applied to the two congruent
addresses 4096 and 2^32 + 4096 on the empty map. -/
theorem c10_witness :
    Symbolic.binsert (Symbolic.asU32 4294971392) (⟨1, 6, 0, none⟩ : Symbolic.SourceLocation)
        (Symbolic.binsert (Symbolic.asU32 4096) ⟨1, 5, 0, none⟩ [])
      = Symbolic.binsert (Symbolic.asU32 4294971392) ⟨1, 6, 0, none⟩ [] :=
  c10_address_truncation.2.2.1 [] 4096 4294971392 ⟨1, 5, 0, none⟩ ⟨1, 6, 0, none⟩
    (by decide)

end Symbolic
